import Mathlib

/-!
Verification of the pyscses Mott-Schottky notebook driver and of the
space-charge solver interfaces it exercises.

The observed source is the notebook `userguides/notebooks/Ex_4_MSapp.ipynb`
(and its duplicate under `unnamed/part_000`): configuration constants, the
closed-form Mott-Schottky relation stated in its markdown, and the driver
loop.  The pyscses library itself (Calculation, Set_of_Sites, Grid) is not
part of the observed source; where a claim depends on it, the corresponding
definition below is modelled from the specification and says so in its doc
comment.
-/

namespace Pyscses

/-- Modelled from the spec: the notebook imports `boltzmann_eV` from the
missing module pyscses.constants; the Boltzmann constant in eV/K (standard
CODATA value). -/
def boltzmann_eV : ℝ := 8.6173303e-5

/-- Damping factor `alpha` from the notebook configuration cell. -/
def alpha : ℝ := 0.0005

/-- Convergence tolerance `conv` from the notebook configuration cell. -/
def conv : ℝ := 1e-8

/-- The right-hand side of the Mott-Schottky relation as written in the
notebook markdown: `r_GB = exp(z Phi0 / kBT) / (2 z Phi0 / kBT)`.
The second argument is the product `kBT`. -/
noncomputable def rGB_of_phi (z kT phi : ℝ) : ℝ :=
  Real.exp (z * phi / kT) / (2 * z * phi / kT)

/-- Outcome of the Mott-Schottky analytic inversion: either a root for the
space-charge potential, or the `NoRootInBracket` failure of the error
taxonomy. -/
inductive MSResult where
  | root (phi : ℝ)
  | noRootInBracket

/-- Modelled from the spec: the contract of the missing
`Calculation.solve_MS_approx_for_phi`.  The scalar root-finder performs a
bracketed search on the branch `z * phi / kBT >= 1`, on which the right-hand
side of the Mott-Schottky relation is monotonically increasing (the spec's
bracketing premise holds there and only there, see the monotonicity
theorems below); it fails, reporting `NoRootInBracket`, when `r_GB < 1` or
when no root lies in the searched branch. -/
def MSInversionSpec (r z kT : ℝ) : MSResult → Prop
  | MSResult.root phi => 1 ≤ r ∧ 1 ≤ z * phi / kT ∧ rGB_of_phi z kT phi = r
  | MSResult.noRootInBracket =>
      r < 1 ∨ ∀ phi, 1 ≤ z * phi / kT → rGB_of_phi z kT phi ≠ r

/-- The round-trip property of the spec: feeding `rGB_of_phi z kT phi0` into
any inversion result compliant with the contract recovers `phi0` within
`eps`. -/
def roundTripRecovers (z kT phi0 eps : ℝ) : Prop :=
  ∀ res, MSInversionSpec (rGB_of_phi z kT phi0) z kT res →
    ∃ phi, res = MSResult.root phi ∧ |phi - phi0| ≤ eps

/-- The damped fixed-point update of the solver iteration, applied node by
node: `phi + alpha * (phiNew - phi)`. -/
def dampedUpdate (a : ℝ) (phi phiNew : List ℝ) : List ℝ :=
  List.zipWith (fun p q => p + a * (q - p)) phi phiNew

/-- Maximum absolute componentwise difference of two potential arrays,
`max |xs - ys|`, the residual of the convergence check. -/
noncomputable def maxAbsDiff (xs ys : List ℝ) : ℝ :=
  (List.zipWith (fun p q => |p - q|) xs ys).foldr max 0

/-- Terminal states of the self-consistent solve: `Converged`, or the
`ConvergenceFailure` of the error taxonomy carrying the last iterate and
the residual. -/
inductive SolveOutcome where
  | converged (phi : List ℝ)
  | convergenceFailure (phi : List ℝ) (residual : ℝ)

/-- Modelled from the spec: the damped fixed-point loop of the missing
`Calculation.solve`.  `F` is the trial Poisson solution for the current
state; each iteration computes `phiNew = F phi`, stores the damped update
`phi + a * (phiNew - phi)`, and stops as `Converged` when the step check
`max |phiNew - phi| < tol` passes; when the iteration cap (the fuel) is
reached first, it surfaces `ConvergenceFailure` with the last iterate and
its residual. -/
noncomputable def solveLoop (F : List ℝ → List ℝ) (a tol : ℝ) :
    ℕ → List ℝ → SolveOutcome
  | 0, phi => SolveOutcome.convergenceFailure phi (maxAbsDiff (F phi) phi)
  | fuel + 1, phi =>
      if maxAbsDiff (F phi) phi < tol then
        SolveOutcome.converged (dampedUpdate a phi (F phi))
      else
        solveLoop F a tol fuel (dampedUpdate a phi (F phi))

/-- One iteration of the solver: the damped update toward the trial Poisson
solution. -/
def iterStep (F : List ℝ → List ℝ) (a : ℝ) (phi : List ℝ) : List ℝ :=
  dampedUpdate a phi (F phi)

/-- The convergence check of step (5) of the iteration:
`max |phi_new - phi_old| < tol`. -/
def stepCheck (F : List ℝ → List ℝ) (tol : ℝ) (phi : List ℝ) : Prop :=
  maxAbsDiff (F phi) phi < tol

/-- Embeds the driver's `max(c_o.phi)` (notebook cell 6): the Python builtin
`max` over the converged potential array, a left fold of the binary maximum
over the elements; it fails on an empty array. -/
noncomputable def pyMax : List ℝ → Option ℝ
  | [] => none
  | x :: xs => some (xs.foldl max x)

/-- Per-defect data held by a Site: label, valence, local mole fraction and
the boundary-condition `fixed` flag. -/
structure DefectEntry where
  label : String
  valence : ℝ
  mole_fraction : ℝ
  fixed : Bool

/-- A grid position's physical state: position, label, per-defect entries
and optional static charge. -/
structure Site where
  x : ℝ
  label : String
  defects : List DefectEntry
  charge : ℝ

/-- Modelled from the spec: `Set_of_Sites.subset` restricted to what the
driver observes, the sites of the collection carrying the given label, in
order. -/
def subsetByLabel (sites : List Site) (lab : String) : List Site :=
  sites.filter (fun s => decide (s.label = lab))

/-- Sets the `fixed` flag of every defect entry of the site carrying the
given defect label. -/
def setDefectFixed (dlab : String) (b : Bool) (s : Site) : Site :=
  { s with defects :=
      s.defects.map (fun e => if e.label = dlab then { e with fixed := b } else e) }

/-- Modelled from the spec: the notebook's Mott-Schottky setup loop under
the view semantics of subsetting.  The loop iterates over
`all_sites.subset("site_2")` and sets `fixed = True` on the "defect_2"
entry of each site; because the subset is a view aliasing the parent, the
observable effect is this transformation of the parent collection. -/
def msSetup (sites : List Site) : List Site :=
  sites.map (fun s => if s.label = "site_2" then setDefectFixed "defect_2" true s else s)

/-- Modelled from the spec: the part of Grid that the subsetting claim
observes; `Grid.grid_from_set_of_sites` derives the grid from the site
collection, copying the ordered positions from it. -/
structure Grid where
  sites : List Site
  positions : List ℝ

/-- Modelled from the spec: `Grid.grid_from_set_of_sites` (limits and
spacing data omitted; the grid is built from, and observes, the mutated
site collection). -/
def gridFromSites (ss : List Site) : Grid :=
  { sites := ss, positions := ss.map Site.x }

/-- Modelled from the spec: the non-uniform three-point Laplacian stencil
on a periodic grid with `n` nodes, computed from the local left and right
spacings; `h i` is the spacing between node `i` and node `i + 1`. -/
noncomputable def lapStencil {n : ℕ} (h phi : ZMod n → ℝ) (i : ZMod n) : ℝ :=
  2 / (h (i - 1) * (h (i - 1) + h i)) * phi (i - 1)
    - 2 / (h (i - 1) * h i) * phi i
    + 2 / (h i * (h (i - 1) + h i)) * phi (i + 1)

/-- The cell volume (local cell width) attached to node `i` of the periodic
non-uniform grid: half the sum of the adjacent spacings. -/
noncomputable def cellVolume {n : ℕ} (h : ZMod n → ℝ) (i : ZMod n) : ℝ :=
  (h (i - 1) + h i) / 2

/-- The charge density of the spec: `rho(x) = sum_i z_i * c_i(x)` plus the
optional static site charge `q`. -/
def chargeDensity {n : ℕ} (species : List (ℝ × (ZMod n → ℝ)))
    (q : ZMod n → ℝ) (i : ZMod n) : ℝ :=
  (species.map (fun p => p.1 * p.2 i)).sum + q i

/-- The discrete flux between node `i` and node `i + 1`. -/
noncomputable def fluxD {n : ℕ} (h phi : ZMod n → ℝ) (i : ZMod n) : ℝ :=
  (phi (i + 1) - phi i) / h i

/-- Modelled from the spec: the slice of the Calculation object state that
the post-solve query ordering observes: the stored resistivity ratio
`r_GB`, and the ratio the analytic inversion was applied to. -/
structure CalcState where
  rGBStored : Option ℝ
  msConsumed : Option ℝ

/-- Modelled from the spec: `calculate_resistivity_ratio` computes the
dimensionless ratio `r_GB` (here abstracted as its numeric result) and
stores it on the Calculation object. -/
def calcResistivityStep (r : ℝ) (s : CalcState) : CalcState :=
  { s with rGBStored := some r }

/-- Modelled from the spec: `solve_MS_approx_for_phi` consumes the `r_GB`
stored on the Calculation object by the preceding
`calculate_resistivity_ratio` call, not a default. -/
def solveMSStep (s : CalcState) : CalcState :=
  { s with msConsumed := s.rGBStored }

/-- The driver's post-solve call sequence from notebook cell 6:
`calculate_resistivity_ratio("positive", 2e-2)` followed by
`solve_MS_approx_for_phi(valence[0])` on the same Calculation object. -/
def driverPostSolve (r : ℝ) (s : CalcState) : CalcState :=
  solveMSStep (calcResistivityStep r s)

end Pyscses

namespace Pyscses

lemma rGB_eq (z kT phi : ℝ) :
    rGB_of_phi z kT phi = Real.exp (z * phi / kT) / (2 * (z * phi / kT)) := by
  unfold rGB_of_phi
  ring_nf

lemma one_lt_msRHS (u : ℝ) (hu : 0 < u) : 1 < Real.exp u / (2 * u) := by
  rw [lt_div_iff₀ (by positivity)]
  have h1 : u / 2 + 1 < Real.exp (u / 2) := by
    have := Real.add_one_lt_exp (x := u / 2) (by positivity)
    linarith
  have h2 : Real.exp u = Real.exp (u / 2) * Real.exp (u / 2) := by
    rw [← Real.exp_add]
    ring_nf
  nlinarith [Real.exp_pos (u / 2), sq_nonneg (u / 2 - 1),
    mul_pos (sub_pos.mpr h1) (show (0:ℝ) < Real.exp (u / 2) + (u / 2 + 1) by positivity)]

lemma msRHS_lt_msRHS (u1 u2 : ℝ) (h1 : 1 ≤ u1) (h12 : u1 < u2) :
    Real.exp u1 / (2 * u1) < Real.exp u2 / (2 * u2) := by
  have hu1 : (0:ℝ) < u1 := lt_of_lt_of_le one_pos h1
  have hu2 : (0:ℝ) < u2 := hu1.trans h12
  rw [div_lt_div_iff₀ (by positivity) (by positivity)]
  have hd : u2 - u1 ≠ 0 := by
    intro hz
    have : u1 = u2 := by linarith
    exact absurd this (ne_of_lt h12)
  have h3 : (u2 - u1) + 1 < Real.exp (u2 - u1) := by
    have := Real.add_one_lt_exp hd
    linarith
  have key : Real.exp u2 = Real.exp u1 * Real.exp (u2 - u1) := by
    rw [← Real.exp_add]
    ring_nf
  have h4 : 2 * u2 ≤ ((u2 - u1) + 1) * (2 * u1) := by
    nlinarith [mul_nonneg (sub_nonneg.mpr h1) (sub_pos.mpr h12).le]
  have h5 : Real.exp u1 * (2 * u2) ≤ Real.exp u1 * (((u2 - u1) + 1) * (2 * u1)) := by
    have he := (Real.exp_pos u1).le
    exact mul_le_mul_of_nonneg_left h4 he
  have h6 : Real.exp u1 * (((u2 - u1) + 1) * (2 * u1))
      < Real.exp u1 * (Real.exp (u2 - u1) * (2 * u1)) := by
    have he : (0:ℝ) < Real.exp u1 := Real.exp_pos u1
    have hmul : ((u2 - u1) + 1) * (2 * u1) < Real.exp (u2 - u1) * (2 * u1) :=
      mul_lt_mul_of_pos_right h3 (by positivity)
    exact mul_lt_mul_of_pos_left hmul he
  calc Real.exp u1 * (2 * u2)
      ≤ Real.exp u1 * (((u2 - u1) + 1) * (2 * u1)) := h5
    _ < Real.exp u1 * (Real.exp (u2 - u1) * (2 * u1)) := h6
    _ = Real.exp u2 * (2 * u1) := by rw [key]; ring

lemma msRHS_inj_on_branch (u1 u2 : ℝ) (h1 : 1 ≤ u1) (h2 : 1 ≤ u2)
    (he : Real.exp u1 / (2 * u1) = Real.exp u2 / (2 * u2)) : u1 = u2 := by
  rcases lt_trichotomy u1 u2 with h | h | h
  · exact absurd he (ne_of_lt (msRHS_lt_msRHS u1 u2 h1 h))
  · exact h
  · exact absurd he.symm (ne_of_lt (msRHS_lt_msRHS u2 u1 h2 h))

lemma msRHS_anti_on_unit (u1 u2 : ℝ) (h0 : 0 < u1) (h12 : u1 < u2) (h2 : u2 ≤ 1) :
    Real.exp u2 / (2 * u2) < Real.exp u1 / (2 * u1) := by
  have hu2 : (0:ℝ) < u2 := h0.trans h12
  have hd : (0:ℝ) < u2 - u1 := sub_pos.mpr h12
  have hden : (0:ℝ) < 1 - (u2 - u1) := by linarith
  have h1 : 1 - (u2 - u1) < Real.exp (-(u2 - u1)) := by
    have := Real.add_one_lt_exp (x := -(u2 - u1)) (by linarith)
    linarith
  have hinv : Real.exp (u2 - u1) * Real.exp (-(u2 - u1)) = 1 := by
    rw [← Real.exp_add]
    simp
  have hkey : Real.exp (u2 - u1) * (1 - (u2 - u1)) < 1 := by
    have hm := mul_lt_mul_of_pos_left h1 (Real.exp_pos (u2 - u1))
    rw [hinv] at hm
    exact hm
  have hk1 : Real.exp (u2 - u1) * (1 - (u2 - u1)) * u1 < u1 := by
    have := mul_lt_mul_of_pos_right hkey h0
    linarith
  have hk2 : u1 ≤ u2 * (1 - (u2 - u1)) := by
    nlinarith [mul_nonneg hd.le (sub_nonneg.mpr h2)]
  have hmain : Real.exp (u2 - u1) * u1 < u2 := by
    nlinarith [hk1, hk2, hden, mul_pos (Real.exp_pos (u2 - u1)) h0]
  have hsplit : Real.exp u2 = Real.exp u1 * Real.exp (u2 - u1) := by
    rw [← Real.exp_add]
    ring_nf
  rw [div_lt_div_iff₀ (by positivity) (by positivity), hsplit]
  nlinarith [mul_pos (Real.exp_pos u1) (sub_pos.mpr hmain)]

lemma dampedUpdate_length (a : ℝ) (phi phiNew : List ℝ) :
    (dampedUpdate a phi phiNew).length = min phi.length phiNew.length := by
  simp [dampedUpdate]

lemma dampedUpdate_get (a : ℝ) :
    ∀ (phi phiNew : List ℝ) (i : ℕ) (h1 : i < phi.length) (h2 : i < phiNew.length)
      (h3 : i < (dampedUpdate a phi phiNew).length),
      (dampedUpdate a phi phiNew).get ⟨i, h3⟩
        = phi.get ⟨i, h1⟩ + a * (phiNew.get ⟨i, h2⟩ - phi.get ⟨i, h1⟩) := by
  intro phi
  induction phi with
  | nil =>
      intro phiNew i h1 _ _
      exact absurd h1 (by simp)
  | cons p ps ih =>
      intro phiNew i h1 h2 h3
      cases phiNew with
      | nil => exact absurd h2 (by simp)
      | cons q qs =>
          cases i with
          | zero => rfl
          | succ j =>
              have hj1 : j < ps.length := by simpa using h1
              have hj2 : j < qs.length := by simpa using h2
              have hj3 : j < (dampedUpdate a ps qs).length := by
                rw [dampedUpdate_length]
                exact lt_min hj1 hj2
              simp only [dampedUpdate, List.zipWith_cons_cons, List.get_cons_succ]
              exact ih qs j hj1 hj2 hj3

lemma le_foldl_max_init (xs : List ℝ) : ∀ x : ℝ, x ≤ xs.foldl max x := by
  induction xs with
  | nil => intro x; simp
  | cons z zs ih =>
      intro x
      simp only [List.foldl_cons]
      exact le_trans (le_max_left x z) (ih (max x z))

lemma foldl_max_mem (xs : List ℝ) : ∀ x : ℝ, xs.foldl max x ∈ x :: xs := by
  induction xs with
  | nil => intro x; simp
  | cons y ys ih =>
      intro x
      have h := ih (max x y)
      simp only [List.foldl_cons]
      rcases List.mem_cons.mp h with h1 | h1
      · rcases max_choice x y with h2 | h2 <;> rw [h1, h2] <;> simp
      · simp [h1]

lemma foldl_max_le (xs : List ℝ) : ∀ x y : ℝ, y ∈ x :: xs → y ≤ xs.foldl max x := by
  induction xs with
  | nil =>
      intro x y hy
      simp only [List.mem_singleton] at hy
      simp [hy]
  | cons z zs ih =>
      intro x y hy
      simp only [List.foldl_cons]
      rcases List.mem_cons.mp hy with h1 | h1
      · subst h1
        exact le_trans (le_max_left y z) (le_foldl_max_init zs (max y z))
      · rcases List.mem_cons.mp h1 with h2 | h2
        · subst h2
          exact le_trans (le_max_right x y) (le_foldl_max_init zs (max x y))
        · exact ih (max x z) y (List.mem_cons.mpr (Or.inr h2))

lemma volume_mul_lap {n : ℕ} (h phi : ZMod n → ℝ) (i : ZMod n)
    (hL : 0 < h (i - 1)) (hR : 0 < h i) :
    cellVolume h i * lapStencil h phi i = fluxD h phi i - fluxD h phi (i - 1) := by
  have hc : i - 1 + 1 = i := by ring
  unfold cellVolume lapStencil fluxD
  rw [hc]
  have h1 : h (i - 1) ≠ 0 := ne_of_gt hL
  have h2 : h i ≠ 0 := ne_of_gt hR
  have h3 : h (i - 1) + h i ≠ 0 := ne_of_gt (add_pos hL hR)
  field_simp
  ring

lemma sum_shift {n : ℕ} [NeZero n] (f : ZMod n → ℝ) :
    (∑ i, f (i - 1)) = ∑ i, f i :=
  Fintype.sum_bijective (fun i => i - 1)
    (Equiv.subRight (1 : ZMod n)).bijective _ _ (fun _ => rfl)

lemma exp_quarter_lt_two : Real.exp ((1:ℝ) / 4) < 2 := by
  by_contra hcon
  push_neg at hcon
  have hp : (2:ℝ) ^ (4:ℕ) ≤ (Real.exp ((1:ℝ) / 4)) ^ (4:ℕ) :=
    pow_le_pow_left₀ (by norm_num) hcon 4
  have he : (Real.exp ((1:ℝ) / 4)) ^ (4:ℕ) = Real.exp 1 := by
    rw [← Real.exp_nat_mul]
    norm_num
  rw [he] at hp
  have := Real.exp_one_lt_d9
  norm_num at hp
  linarith

/-- C2 (counterexample): the right-hand side of the Mott-Schottky relation
is not monotonically increasing for every positive potential: at positive
temperature `T = 1 / boltzmann_eV` (so that `kBT = 1`) and valence `z = 1`,
the value at `phi = 1/2` is strictly below the value at the smaller
`phi = 1/4`. -/
theorem ms_rhs_not_increasing :
    0 < (1 / 4 : ℝ) ∧ (1 / 4 : ℝ) < 1 / 2 ∧ 0 < (1 : ℝ) ∧ 0 < 1 / boltzmann_eV ∧
      rGB_of_phi 1 (boltzmann_eV * (1 / boltzmann_eV)) (1 / 2)
        < rGB_of_phi 1 (boltzmann_eV * (1 / boltzmann_eV)) (1 / 4) := by
  have hb : boltzmann_eV * (1 / boltzmann_eV) = 1 := by
    norm_num [boltzmann_eV]
  refine ⟨by norm_num, by norm_num, by norm_num, by norm_num [boltzmann_eV], ?_⟩
  rw [hb, rGB_eq, rGB_eq]
  norm_num
  have h4 := exp_quarter_lt_two
  have hsq : Real.exp ((1:ℝ) / 2) = Real.exp ((1:ℝ) / 4) * Real.exp ((1:ℝ) / 4) := by
    rw [← Real.exp_add]
    norm_num
  nlinarith [Real.exp_pos ((1:ℝ) / 4)]

/-- C2 (amended): the right-hand side `exp(z phi / kBT) / (2 z phi / kBT)`
is strictly increasing in `phi` on the branch `z * phi / kBT >= 1` (with `z`
and the temperature fixed and positive); below that branch it is decreasing,
see the counterexample. -/
theorem rGB_strict_mono_on_branch (z kT phi1 phi2 : ℝ) (hz : 0 < z) (hkT : 0 < kT)
    (h1 : 1 ≤ z * phi1 / kT) (h12 : phi1 < phi2) :
    rGB_of_phi z kT phi1 < rGB_of_phi z kT phi2 := by
  rw [rGB_eq, rGB_eq]
  refine msRHS_lt_msRHS _ _ h1 ?_
  gcongr

/-- C2 witness: the amended monotonicity at a concrete input. -/
theorem rGB_strict_mono_on_branch_witness :
    rGB_of_phi 1 1 1 < rGB_of_phi 1 1 2 :=
  rGB_strict_mono_on_branch 1 1 1 2 (by norm_num) (by norm_num) (by norm_num) (by norm_num)

/-- C1 (counterexample): the round trip fails as stated, in two in-context
ways.  For valence `z = -1` (with `kBT = boltzmann_eV * 773.15` and
synthetic `phi0 = 0.1`) the closed-form `r_GB` is negative, hence below 1,
so every contract-compliant inversion result is `NoRootInBracket` and
nothing is recovered.  And for valence `z = +1` at the notebook temperature
`T = 1273.15 K`, where `kBT` exceeds `phi0 = 0.1` (so `z phi0 / kBT < 1`,
off the standard branch), there is a contract-compliant result - the root
on the standard branch, which exists by the intermediate value theorem -
that differs from `phi0` by more than `conv`: the round trip fails there
too. -/
theorem ms_roundtrip_fails_as_stated :
    ¬ roundTripRecovers (-1) (boltzmann_eV * 773.15) 0.1 conv
      ∧ ¬ roundTripRecovers 1 (boltzmann_eV * 1273.15) 0.1 conv := by
  constructor
  · intro hrt
    have hkT : (0:ℝ) < boltzmann_eV * 773.15 := by norm_num [boltzmann_eV]
    have hr : rGB_of_phi (-1) (boltzmann_eV * 773.15) 0.1 < 1 := by
      have hnum : (0:ℝ) < Real.exp ((-1) * 0.1 / (boltzmann_eV * 773.15)) :=
        Real.exp_pos _
      have hden : (2 * (-1) * 0.1 / (boltzmann_eV * 773.15)) < 0 := by
        apply div_neg_of_neg_of_pos _ hkT
        norm_num
      have hneg : rGB_of_phi (-1) (boltzmann_eV * 773.15) 0.1 < 0 :=
        div_neg_of_pos_of_neg hnum hden
      linarith
    obtain ⟨phi, heq, -⟩ := hrt MSResult.noRootInBracket (Or.inl hr)
    exact MSResult.noConfusion heq
  · intro hrt
    have hkT : (0:ℝ) < boltzmann_eV * 1273.15 := by norm_num [boltzmann_eV]
    have hgt : (0.1:ℝ) + conv < boltzmann_eV * 1273.15 := by
      norm_num [boltzmann_eV, conv]
    have hu0pos : (0:ℝ) < 0.1 / (boltzmann_eV * 1273.15) := by positivity
    have hu0lt : (0.1:ℝ) / (boltzmann_eV * 1273.15) < 1 := by
      rw [div_lt_one hkT]
      have hc0 : (0:ℝ) < conv := by norm_num [conv]
      linarith
    have hu0gt : (0.9:ℝ) < 0.1 / (boltzmann_eV * 1273.15) := by
      rw [lt_div_iff₀ hkT]
      norm_num [boltzmann_eV]
    have hreq : rGB_of_phi 1 (boltzmann_eV * 1273.15) 0.1
        = Real.exp (0.1 / (boltzmann_eV * 1273.15))
          / (2 * (0.1 / (boltzmann_eV * 1273.15))) := by
      rw [rGB_eq, one_mul]
    have hlb : Real.exp 1 / (2 * 1) < rGB_of_phi 1 (boltzmann_eV * 1273.15) 0.1 := by
      rw [hreq]
      exact msRHS_anti_on_unit (0.1 / (boltzmann_eV * 1273.15)) 1 hu0pos hu0lt le_rfl
    have hub : rGB_of_phi 1 (boltzmann_eV * 1273.15) 0.1 < 2 := by
      rw [hreq, div_lt_iff₀ (by positivity)]
      have hexp : Real.exp (0.1 / (boltzmann_eV * 1273.15)) < 3 := by
        have hmono : Real.exp (0.1 / (boltzmann_eV * 1273.15)) < Real.exp 1 :=
          Real.exp_lt_exp.mpr hu0lt
        have := Real.exp_one_lt_d9
        linarith
      linarith
    have h2e : (2:ℝ) ≤ Real.exp 1 := by
      have := Real.add_one_le_exp (1:ℝ)
      linarith
    have hf4 : (2:ℝ) ≤ Real.exp 4 / (2 * 4) := by
      have h16 : (16:ℝ) ≤ Real.exp 4 := by
        have hpow : ((2:ℝ)) ^ (4:ℕ) ≤ (Real.exp 1) ^ (4:ℕ) :=
          pow_le_pow_left₀ (by norm_num) h2e 4
        have hexp4 : (Real.exp 1) ^ (4:ℕ) = Real.exp 4 := by
          rw [← Real.exp_nat_mul]
          norm_num
        rw [hexp4] at hpow
        norm_num at hpow
        linarith
      rw [le_div_iff₀ (by norm_num)]
      linarith
    have hcont : ContinuousOn (fun u : ℝ => Real.exp u / (2 * u))
        (Set.Icc (1:ℝ) 4) := by
      apply ContinuousOn.div
      · exact Real.continuous_exp.continuousOn
      · exact (continuous_const.mul continuous_id).continuousOn
      · intro x hx
        have hx1 : (1:ℝ) ≤ x := hx.1
        have hx2 : (0:ℝ) < 2 * x := by linarith
        exact ne_of_gt hx2
    have hmem : rGB_of_phi 1 (boltzmann_eV * 1273.15) 0.1
        ∈ Set.Icc (Real.exp 1 / (2 * 1)) (Real.exp 4 / (2 * 4)) :=
      Set.mem_Icc.mpr ⟨hlb.le, by linarith⟩
    obtain ⟨ustar, humem, hueq⟩ :=
      intermediate_value_Icc (by norm_num : (1:ℝ) ≤ 4) hcont hmem
    have hust1 : (1:ℝ) ≤ ustar := humem.1
    have harg : 1 * (boltzmann_eV * 1273.15 * ustar) / (boltzmann_eV * 1273.15)
        = ustar := by
      rw [one_mul, mul_comm (boltzmann_eV * 1273.15) ustar, mul_div_assoc,
        div_self (ne_of_gt hkT), mul_one]
    have hcomp : MSInversionSpec (rGB_of_phi 1 (boltzmann_eV * 1273.15) 0.1) 1
        (boltzmann_eV * 1273.15) (MSResult.root (boltzmann_eV * 1273.15 * ustar)) := by
      refine ⟨?_, ?_, ?_⟩
      · have hhalf : (1:ℝ) ≤ Real.exp 1 / (2 * 1) := by
          rw [le_div_iff₀ (by norm_num)]
          linarith
        linarith
      · rw [harg]
        exact hust1
      · rw [rGB_eq, harg]
        exact hueq
    obtain ⟨phi, heq, hclose⟩ := hrt _ hcomp
    rw [MSResult.root.injEq] at heq
    have hge : (0.1:ℝ) + conv < boltzmann_eV * 1273.15 * ustar := by
      calc (0.1:ℝ) + conv < boltzmann_eV * 1273.15 := hgt
        _ = boltzmann_eV * 1273.15 * 1 := by ring
        _ ≤ boltzmann_eV * 1273.15 * ustar :=
            mul_le_mul_of_nonneg_left hust1 hkT.le
    rw [← heq] at hclose
    have habs := abs_le.mp hclose
    linarith [habs.2]

/-- C1 (amended): the Mott-Schottky round trip, restricted to where it can
hold: for valence `z = +1`, synthetic `phi0` in (0.1, 0.2, 0.5) and any
positive `kBT <= phi0` (so that the root lies on the standard branch
`z * phi0 / kBT >= 1`), every inversion result compliant with the contract
is exactly `root phi0`, hence recovers `phi0` within `conv`.  Both excluded
regions genuinely fail and are exhibited by the counterexample: for
`z = -1` the closed-form `r_GB` is below 1 and the inversion reports
`NoRootInBracket`, and for `z = +1` with `kBT > phi0` (which occurs in the
notebook at `phi0 = 0.1` for its two highest temperatures) the compliant
result is the standard-branch root, which misses `phi0` by more than
`conv`. -/
theorem ms_roundtrip_recovers_on_branch (kT phi0 : ℝ) (hkT : 0 < kT)
    (_hmem : phi0 = 0.1 ∨ phi0 = 0.2 ∨ phi0 = 0.5) (hbranch : kT ≤ phi0) :
    roundTripRecovers 1 kT phi0 conv := by
  intro res hres
  have hu0 : 1 ≤ 1 * phi0 / kT := by
    rw [one_mul, le_div_iff₀ hkT]
    linarith
  cases res with
  | root phi =>
      obtain ⟨h1r, hbr, heq⟩ := hres
      refine ⟨phi, rfl, ?_⟩
      have e1 : Real.exp (1 * phi / kT) / (2 * (1 * phi / kT))
          = Real.exp (1 * phi0 / kT) / (2 * (1 * phi0 / kT)) := by
        rw [← rGB_eq, ← rGB_eq]
        exact heq
      have e2 : 1 * phi / kT = 1 * phi0 / kT :=
        msRHS_inj_on_branch _ _ hbr hu0 e1
      have e3 : phi = phi0 := by
        field_simp [ne_of_gt hkT] at e2
        exact e2
      rw [e3, sub_self, abs_zero]
      norm_num [conv]
  | noRootInBracket =>
      rcases hres with hlt | hno
      · exfalso
        have hpos : 0 < 1 * phi0 / kT := by linarith
        have : 1 < rGB_of_phi 1 kT phi0 := by
          rw [rGB_eq]
          exact one_lt_msRHS _ hpos
        linarith
      · exact absurd rfl (hno phi0 hu0)

/-- C1 witness: the amended round trip at the concrete input
`kBT = 0.05`, `phi0 = 0.1`. -/
theorem ms_roundtrip_recovers_on_branch_witness :
    roundTripRecovers 1 0.05 0.1 conv :=
  ms_roundtrip_recovers_on_branch 0.05 0.1 (by norm_num) (Or.inl rfl) (by norm_num)

/-- C3: error behaviour of the Mott-Schottky inversion.  For every input
`r_GB < 1` there genuinely is no root of the relation with positive
`z * phi / kBT` (the right-hand side always exceeds 1 there); every
contract-compliant outcome is the `NoRootInBracket` failure, and no numeric
`root` outcome is compliant. -/
theorem ms_inversion_reports_no_root (r z kT : ℝ) (hr : r < 1) :
    (∀ phi, 0 < z * phi / kT → rGB_of_phi z kT phi ≠ r)
      ∧ MSInversionSpec r z kT MSResult.noRootInBracket
      ∧ (∀ phi, ¬ MSInversionSpec r z kT (MSResult.root phi)) := by
  refine ⟨?_, Or.inl hr, ?_⟩
  · intro phi hpos heq
    have h1 : 1 < rGB_of_phi z kT phi := by
      rw [rGB_eq]
      exact one_lt_msRHS _ hpos
    rw [heq] at h1
    linarith
  · intro phi hspec
    obtain ⟨h1r, -, -⟩ := hspec
    linarith

/-- C3 witness: the error behaviour at the concrete input `r = 1/2`,
`z = 1`, `kBT = 1`. -/
theorem ms_inversion_reports_no_root_witness :
    (∀ phi, 0 < (1:ℝ) * phi / 1 → rGB_of_phi 1 1 phi ≠ 1 / 2)
      ∧ MSInversionSpec (1 / 2) 1 1 MSResult.noRootInBracket
      ∧ (∀ phi, ¬ MSInversionSpec (1 / 2) 1 1 (MSResult.root phi)) :=
  ms_inversion_reports_no_root (1 / 2) 1 1 (by norm_num)

/-- C5: the scalar the driver reports as the numeric space-charge potential
is `max(c_o.phi)`: on every nonempty converged potential array it is an
element of the array and an upper bound of all grid-node values, i.e. the
maximum. -/
theorem reported_potential_is_max (x : ℝ) (xs : List ℝ) :
    ∃ m, pyMax (x :: xs) = some m ∧ m ∈ x :: xs ∧ ∀ y ∈ x :: xs, y ≤ m := by
  refine ⟨xs.foldl max x, rfl, foldl_max_mem xs x, ?_⟩
  intro y hy
  exact foldl_max_le xs x y hy

/-- C10: in the driver's post-solve sequence the inversion consumes exactly
the resistivity ratio stored by the preceding
`calculate_resistivity_ratio` call on the same Calculation object:
whatever the prior state (including an unset default), the ratio consumed
equals the ratio just stored and is never the unset default. -/
theorem inversion_consumes_stored_r (r : ℝ) (s : CalcState) :
    (driverPostSolve r s).msConsumed = some r
      ∧ (driverPostSolve r s).msConsumed = (calcResistivityStep r s).rGBStored
      ∧ (driverPostSolve r s).msConsumed ≠ none := by
  refine ⟨rfl, rfl, ?_⟩
  simp [driverPostSolve, solveMSStep, calcResistivityStep]

/-- C6: each iteration of the solver applies the damped fixed-point update.
The iterate after step `k` is the damped update of the previous state
toward the trial Poisson solution; node by node the new stored potential is
the old potential plus `a` times the difference of the trial solution and
the old potential; and the notebook's configured damping factor `alpha`
lies in (0, 1]. -/
theorem solver_iteration_damped_update (F : List ℝ → List ℝ) (a : ℝ)
    (phi phiNew : List ℝ) (i : ℕ) (h1 : i < phi.length) (h2 : i < phiNew.length) :
    (0 < alpha ∧ alpha ≤ 1)
      ∧ (∀ (k : ℕ) (phi0 : List ℝ),
          (iterStep F a)^[k + 1] phi0
            = dampedUpdate a ((iterStep F a)^[k] phi0) (F ((iterStep F a)^[k] phi0)))
      ∧ ∃ h3 : i < (dampedUpdate a phi phiNew).length,
          (dampedUpdate a phi phiNew).get ⟨i, h3⟩
            = phi.get ⟨i, h1⟩ + a * (phiNew.get ⟨i, h2⟩ - phi.get ⟨i, h1⟩) := by
  refine ⟨⟨by norm_num [alpha], by norm_num [alpha]⟩, ?_, ?_⟩
  · intro k phi0
    rw [Function.iterate_succ_apply']
    rfl
  · have h3 : i < (dampedUpdate a phi phiNew).length := by
      rw [dampedUpdate_length]
      exact lt_min h1 h2
    exact ⟨h3, dampedUpdate_get a phi phiNew i h1 h2 h3⟩

/-- C6 witness: the damped update at a concrete input. -/
theorem solver_iteration_damped_update_witness :
    (0 < alpha ∧ alpha ≤ 1)
      ∧ (∀ (k : ℕ) (phi0 : List ℝ),
          (iterStep id (1 / 2))^[k + 1] phi0
            = dampedUpdate (1 / 2) ((iterStep id (1 / 2))^[k] phi0)
                (id ((iterStep id (1 / 2))^[k] phi0)))
      ∧ ∃ h3 : 0 < (dampedUpdate (1 / 2) [0, 1] [2, 3]).length,
          (dampedUpdate (1 / 2) [0, 1] [2, 3]).get ⟨0, h3⟩
            = ([0, 1] : List ℝ).get ⟨0, by simp⟩
              + 1 / 2 * (([2, 3] : List ℝ).get ⟨0, by simp⟩
                - ([0, 1] : List ℝ).get ⟨0, by simp⟩) :=
  solver_iteration_damped_update id (1 / 2) [0, 1] [2, 3] 0 (by simp) (by simp)

/-- C7: the Mott-Schottky setup loop, acting through the label subset as a
view of the parent collection, fixes the "defect_2" entry of every parent
site labeled "site_2" and changes nothing else: the collection keeps its
length; every "site_2" site of the parent (and of the subset) has its
"defect_2" entries fixed; sites with other labels are untouched; position,
label, charge and the other defect entries of every site are preserved; and
the Grid built from the mutated collection observes the mutation. -/
theorem ms_setup_aliases_parent (sites : List Site) :
    ((msSetup sites).length = sites.length)
      ∧ (∀ s ∈ msSetup sites, s.label = "site_2" →
          ∀ e ∈ s.defects, e.label = "defect_2" → e.fixed = true)
      ∧ (∀ s ∈ subsetByLabel (msSetup sites) "site_2",
          ∀ e ∈ s.defects, e.label = "defect_2" → e.fixed = true)
      ∧ (∀ (i : ℕ) (hi : i < sites.length) (hi2 : i < (msSetup sites).length),
          (sites[i].label ≠ "site_2" → (msSetup sites)[i] = sites[i])
            ∧ (msSetup sites)[i].x = sites[i].x
            ∧ (msSetup sites)[i].label = sites[i].label
            ∧ (msSetup sites)[i].charge = sites[i].charge
            ∧ ∀ e ∈ (msSetup sites)[i].defects, e.label ≠ "defect_2" →
                e ∈ sites[i].defects)
      ∧ (∀ s ∈ (gridFromSites (msSetup sites)).sites, s.label = "site_2" →
          ∀ e ∈ s.defects, e.label = "defect_2" → e.fixed = true) := by
  have hfix : ∀ s : Site, ∀ e ∈ (setDefectFixed "defect_2" true s).defects,
      e.label = "defect_2" → e.fixed = true := by
    intro s e he helab
    obtain ⟨e0, _, hge⟩ := List.mem_map.mp he
    by_cases hd : e0.label = "defect_2"
    · rw [← hge]
      simp [hd]
    · rw [← hge] at helab
      simp [hd] at helab
  have hB : ∀ s ∈ msSetup sites, s.label = "site_2" →
      ∀ e ∈ s.defects, e.label = "defect_2" → e.fixed = true := by
    intro s hs hlab e he helab
    obtain ⟨s0, _, hmap⟩ := List.mem_map.mp hs
    by_cases hc : s0.label = "site_2"
    · rw [if_pos hc] at hmap
      rw [← hmap] at he
      exact hfix s0 e he helab
    · rw [if_neg hc] at hmap
      rw [← hmap] at hlab
      exact absurd hlab hc
  refine ⟨by simp [msSetup], hB, ?_, ?_, ?_⟩
  · intro s hs e he helab
    have hs2 : s ∈ msSetup sites := (List.mem_filter.mp hs).1
    have hlab : s.label = "site_2" := by
      have := (List.mem_filter.mp hs).2
      simpa using this
    exact hB s hs2 hlab e he helab
  · intro i hi hi2
    have hget : (msSetup sites)[i]
        = if sites[i].label = "site_2" then setDefectFixed "defect_2" true sites[i]
          else sites[i] := by
      simp [msSetup]
    by_cases hc : sites[i].label = "site_2"
    · rw [hget, if_pos hc]
      refine ⟨fun hne => absurd hc hne, rfl, rfl, rfl, ?_⟩
      intro e he hene
      obtain ⟨e0, he0, hge⟩ := List.mem_map.mp he
      by_cases hd : e0.label = "defect_2"
      · rw [← hge] at hene
        simp [hd] at hene
      · rw [if_neg hd] at hge
        rw [← hge]
        exact he0
    · rw [hget, if_neg hc]
      exact ⟨fun _ => rfl, rfl, rfl, rfl, fun e he _ => he⟩
  · intro s hs hlab e he helab
    exact hB s hs hlab e he helab

/-- C8: electroneutrality under periodic boundary conditions.  When the
converged potential satisfies the discretized Poisson equation on the
periodic non-uniform grid for its own charge density
`rho = sum_i z_i c_i + q`, the volume-weighted sum of the charge density
over the grid telescopes to exactly zero, so its spatial average is zero
and in particular within any positive convergence tolerance. -/
theorem periodic_electroneutrality (n : ℕ) [NeZero n]
    (h phi q : ZMod n → ℝ) (species : List (ℝ × (ZMod n → ℝ)))
    (diel tol : ℝ) (hh : ∀ i, 0 < h i) (htol : 0 < tol) (hdiel : diel ≠ 0)
    (hpoisson : ∀ i, lapStencil h phi i = -(chargeDensity species q i) / diel) :
    (∑ i, cellVolume h i * chargeDensity species q i) = 0
      ∧ |(∑ i, cellVolume h i * chargeDensity species q i) / (∑ i, cellVolume h i)|
          < tol := by
  have key : ∀ i, cellVolume h i * chargeDensity species q i
      = -diel * (fluxD h phi i - fluxD h phi (i - 1)) := by
    intro i
    have hcd : chargeDensity species q i = -diel * lapStencil h phi i := by
      rw [hpoisson i]
      field_simp
    calc cellVolume h i * chargeDensity species q i
        = -diel * (cellVolume h i * lapStencil h phi i) := by rw [hcd]; ring
      _ = -diel * (fluxD h phi i - fluxD h phi (i - 1)) := by
          rw [volume_mul_lap h phi i (hh (i - 1)) (hh i)]
  have hzero : (∑ i, cellVolume h i * chargeDensity species q i) = 0 := by
    calc (∑ i, cellVolume h i * chargeDensity species q i)
        = ∑ i, -diel * (fluxD h phi i - fluxD h phi (i - 1)) := by
          exact Finset.sum_congr rfl (fun i _ => key i)
      _ = -diel * ∑ i, (fluxD h phi i - fluxD h phi (i - 1)) := by
          rw [Finset.mul_sum]
      _ = -diel * ((∑ i, fluxD h phi i) - ∑ i, fluxD h phi (i - 1)) := by
          rw [Finset.sum_sub_distrib]
      _ = 0 := by
          rw [sum_shift (fluxD h phi)]
          ring
  refine ⟨hzero, ?_⟩
  rw [hzero, zero_div, abs_zero]
  exact htol

/-- C8 witness: electroneutrality at a concrete periodic configuration (one
node, unit spacing, zero potential, no species, no static charge). -/
theorem periodic_electroneutrality_witness :
    (∑ i : ZMod 1, cellVolume (fun _ => (1:ℝ)) i
        * chargeDensity ([] : List (ℝ × (ZMod 1 → ℝ))) (fun _ => 0) i) = 0
      ∧ |(∑ i : ZMod 1, cellVolume (fun _ => (1:ℝ)) i
            * chargeDensity ([] : List (ℝ × (ZMod 1 → ℝ))) (fun _ => 0) i)
          / (∑ i : ZMod 1, cellVolume (fun _ => (1:ℝ)) i)| < 1 :=
  periodic_electroneutrality 1 (fun _ => 1) (fun _ => 0) (fun _ => 0) [] 1 1
    (fun _ => by norm_num) (by norm_num) (by norm_num)
    (fun i => by simp [lapStencil, chargeDensity])

/-- C4: termination and reporting of the self-consistent solve.  For every
trial-solution map, damping, tolerance, iteration cap and initial state,
the loop ends `Converged` exactly when some iterate within the cap passes
the step check `max |phi_new - phi_old| < tol` (and the returned potential
is the damped update of the first such iterate), and it ends
`ConvergenceFailure` exactly when no iterate within the cap passes the
check, carrying the last iterate and its residual; an unconverged state is
never returned as `Converged`. -/
theorem solve_terminal_states (F : List ℝ → List ℝ) (a tol : ℝ) (fuel : ℕ)
    (phi0 : List ℝ) :
    (∀ phiC, solveLoop F a tol fuel phi0 = SolveOutcome.converged phiC ↔
        ∃ k, k < fuel
          ∧ (∀ j, j < k → ¬ stepCheck F tol ((iterStep F a)^[j] phi0))
          ∧ stepCheck F tol ((iterStep F a)^[k] phi0)
          ∧ phiC = (iterStep F a)^[k + 1] phi0)
      ∧ (∀ phiF r,
          solveLoop F a tol fuel phi0 = SolveOutcome.convergenceFailure phiF r ↔
            (∀ j, j < fuel → ¬ stepCheck F tol ((iterStep F a)^[j] phi0))
              ∧ phiF = (iterStep F a)^[fuel] phi0
              ∧ r = maxAbsDiff (F phiF) phiF) := by
  induction fuel generalizing phi0 with
  | zero =>
      refine ⟨?_, ?_⟩
      · intro phiC
        constructor
        · intro hEq
          exact absurd hEq (by simp [solveLoop])
        · rintro ⟨k, hk, -⟩
          exact absurd hk (by omega)
      · intro phiF r
        constructor
        · intro hEq
          simp only [solveLoop] at hEq
          cases hEq
          exact ⟨fun j hj => absurd hj (by omega), by simp, rfl⟩
        · rintro ⟨-, hphi, hr⟩
          simp only [Function.iterate_zero_apply] at hphi
          subst hphi
          subst hr
          simp [solveLoop]
  | succ n ih =>
      have hshift : ∀ j : ℕ,
          (iterStep F a)^[j] (iterStep F a phi0) = (iterStep F a)^[j + 1] phi0 :=
        fun j => (Function.iterate_succ_apply (iterStep F a) j phi0).symm
      by_cases hc : stepCheck F tol phi0
      · have hc' : maxAbsDiff (F phi0) phi0 < tol := hc
        have hrun : solveLoop F a tol (n + 1) phi0
            = SolveOutcome.converged (dampedUpdate a phi0 (F phi0)) := by
          simp only [solveLoop]
          rw [if_pos hc']
        refine ⟨?_, ?_⟩
        · intro phiC
          constructor
          · intro hEq
            rw [hrun] at hEq
            cases hEq
            refine ⟨0, by omega, fun j hj => absurd hj (by omega), ?_, ?_⟩
            · simpa using hc
            · simp [iterStep]
          · rintro ⟨k, hk, hprev, hchk, hphiC⟩
            have hk0 : k = 0 := by
              by_contra hne
              have h0 := hprev 0 (by omega)
              simp only [Function.iterate_zero_apply] at h0
              exact h0 hc
            subst hk0
            rw [hrun, hphiC]
            simp [iterStep]
        · intro phiF r
          constructor
          · intro hEq
            rw [hrun] at hEq
            exact absurd hEq (by simp)
          · rintro ⟨hall, -, -⟩
            have h0 := hall 0 (by omega)
            simp only [Function.iterate_zero_apply] at h0
            exact absurd hc h0
      · have hc' : ¬ maxAbsDiff (F phi0) phi0 < tol := hc
        have hrun : solveLoop F a tol (n + 1) phi0
            = solveLoop F a tol n (iterStep F a phi0) := by
          simp only [solveLoop]
          rw [if_neg hc']
          rfl
        have IH := ih (iterStep F a phi0)
        refine ⟨?_, ?_⟩
        · intro phiC
          rw [hrun, IH.1 phiC]
          constructor
          · rintro ⟨k, hk, hprev, hchk, hphiC⟩
            refine ⟨k + 1, by omega, ?_, ?_, ?_⟩
            · intro j hj
              cases j with
              | zero => simpa using hc
              | succ j' =>
                  rw [← hshift j']
                  exact hprev j' (by omega)
            · rw [← hshift k]
              exact hchk
            · rw [← hshift (k + 1)]
              exact hphiC
          · rintro ⟨k, hk, hprev, hchk, hphiC⟩
            cases k with
            | zero =>
                exfalso
                simp only [Function.iterate_zero_apply] at hchk
                exact hc hchk
            | succ k' =>
                refine ⟨k', by omega, ?_, ?_, ?_⟩
                · intro j hj
                  rw [hshift j]
                  exact hprev (j + 1) (by omega)
                · rw [hshift k']
                  exact hchk
                · rw [hshift (k' + 1)]
                  exact hphiC
        · intro phiF r
          rw [hrun, IH.2 phiF r]
          constructor
          · rintro ⟨hall, hphi, hr⟩
            refine ⟨?_, ?_, hr⟩
            · intro j hj
              cases j with
              | zero => simpa using hc
              | succ j' =>
                  rw [← hshift j']
                  exact hall j' (by omega)
            · rw [← hshift n]
              exact hphi
          · rintro ⟨hall, hphi, hr⟩
            refine ⟨?_, ?_, hr⟩
            · intro j hj
              rw [hshift j]
              exact hall (j + 1) (by omega)
            · rw [hshift n]
              exact hphi

end Pyscses
